import Mathlib

/-!
Shallow embedding of the habit-tracker statistics engine
(`src/backend/app/routers/habits.py`).

Calendar dates are modelled as integers (day numbers): consecutive calendar
days differ by `1`, and `d1 - d2` is the signed day difference, matching
Python's `(date1 - date2).days`.  ISO `YYYY-MM-DD` strings and their parsed
`date` values are identified through this encoding, which is injective and
gap-preserving (well-formed date strings are a stated precondition of the
engine).  Event status is kept as the raw string stored in the `status`
column ("completed" or "skipped" for well-formed rows).
-/

/-- One row of the `completions` table, restricted to the two columns the
statistics engine reads: `completed_date` (a `YYYY-MM-DD` string in the
source, modelled as a day number) and `status`. -/
structure Completion where
  completed_date : Int
  status : String
deriving DecidableEq

/-- One row of the `habits` table, restricted to the single field the engine
reads: the date part `created_at[:10]` of the ISO datetime `created_at`
column, modelled as a day number. -/
structure Habit where
  created_at : Int
deriving DecidableEq

/-- `_prev_day` from the source: the previous calendar day. -/
def _prev_day (d : Int) : Int := d - 1

/-- The dict `{c.completed_date: c.status for c in completions}` built by
`calculate_streak`: a Python dict comprehension keeps the last binding for a
repeated key, hence the `find?` over the reversed list. -/
def completion_map (completions : List Completion) (d : Int) : Option String :=
  ((completions.reverse).find? (fun c => c.completed_date == d)).map Completion.status

theorem filter_length_le_of_imp {α : Type _} (l : List α) (p q : α → Bool)
    (h : ∀ a ∈ l, p a = true → q a = true) :
    (l.filter p).length ≤ (l.filter q).length := by
  induction l with
  | nil => simp
  | cons a t ih =>
    have ih' := ih (fun b hb => h b (List.mem_cons_of_mem a hb))
    simp only [List.filter_cons]
    by_cases hp : p a = true
    · rw [if_pos hp, if_pos (h a (List.mem_cons_self a t) hp)]
      simpa using ih'
    · rw [if_neg hp]
      by_cases hq : q a = true
      · rw [if_pos hq]
        exact ih'.trans (Nat.le_succ _)
      · rw [if_neg hq]
        exact ih'

theorem filter_length_lt_of_mem {α : Type _} (l : List α) (p q : α → Bool)
    (h : ∀ a ∈ l, p a = true → q a = true) (x : α) (hx : x ∈ l)
    (hqx : q x = true) (hpx : p x = false) :
    (l.filter p).length < (l.filter q).length := by
  induction l with
  | nil => cases hx
  | cons a t ih =>
    simp only [List.filter_cons]
    rcases List.mem_cons.mp hx with rfl | hxt
    · rw [if_pos hqx, if_neg (by simp [hpx])]
      have := filter_length_le_of_imp t p q (fun b hb => h b (List.mem_cons_of_mem x hb))
      simpa using Nat.lt_succ_of_le this
    · have ih' := ih (fun b hb => h b (List.mem_cons_of_mem a hb)) hxt
      by_cases hp : p a = true
      · rw [if_pos hp, if_pos (h a (List.mem_cons_self a t) hp)]
        simpa using ih'
      · rw [if_neg hp]
        by_cases hq : q a = true
        · rw [if_pos hq]
          exact ih'.trans (Nat.lt_succ_self _)
        · rw [if_neg hq]
          exact ih'

theorem completion_map_some_mem {cs : List Completion} {d : Int} {st : String}
    (h : completion_map cs d = some st) :
    ∃ c ∈ cs, c.completed_date = d ∧ c.status = st := by
  obtain ⟨c, hfind, hst⟩ := Option.map_eq_some'.mp h
  refine ⟨c, List.mem_reverse.mp (List.mem_of_find?_eq_some hfind), ?_, hst⟩
  simpa using List.find?_some hfind

/-- The backward walk (`while True:` loop) of `calculate_streak`, with the
loop state (`streak`, `check_date`) made explicit.  A `some` branch is the
`date_str in completion_map` case; the `none` branch is the no-entry case
with its two exits (`streak > 0`, and the tolerance bound
`(today - check_date).days > 1` tested after moving one day back). -/
def streakGo (completions : List Completion) (today : Int)
    (streak : Nat) (check_date : Int) : Nat :=
  match _h : completion_map completions check_date with
  | some st =>
      streakGo completions today
        (if st == "completed" then streak + 1 else streak) (_prev_day check_date)
  | none =>
      if streak > 0 then streak
      else
        let cd := _prev_day check_date
        if today - cd > 1 then streak
        else streakGo completions today streak cd
termination_by
  (completions.filter (fun c => c.completed_date ≤ check_date)).length
    + (check_date - today + 2).toNat
decreasing_by
  · obtain ⟨c, hc, hcd, -⟩ := completion_map_some_mem _h
    have hlt : (completions.filter
          (fun c => c.completed_date ≤ _prev_day check_date)).length
        < (completions.filter (fun c => c.completed_date ≤ check_date)).length := by
      refine filter_length_lt_of_mem completions _ _ ?_ c hc ?_ ?_
      · intro a _
        simp only [_prev_day, decide_eq_true_eq]
        omega
      · simp only [decide_eq_true_eq, hcd]
        omega
      · simp only [_prev_day, decide_eq_false_iff_not, hcd]
        omega
    have hle : (_prev_day check_date - today + 2).toNat
        ≤ (check_date - today + 2).toNat := by
      simp only [_prev_day]; omega
    have hpd : _prev_day check_date = check_date - 1 := rfl
    omega
  · have hle : (completions.filter
          (fun c => c.completed_date ≤ _prev_day check_date)).length
        ≤ (completions.filter (fun c => c.completed_date ≤ check_date)).length := by
      apply filter_length_le_of_imp
      intro a _
      simp only [_prev_day, decide_eq_true_eq]
      omega
    have hpd : _prev_day check_date = check_date - 1 := rfl
    omega

/-- `calculate_streak` from the source: current streak, counting consecutive
completed days from `today` backwards, with skipped days transparent. -/
def calculate_streak (completions : List Completion) (today : Int) : Nat :=
  if completions.isEmpty then 0
  else streakGo completions today 0 today

/-- The list comprehension
`[date.fromisoformat(c.completed_date) for c in completions if c.status == "completed"]`. -/
def completedDatesList (completions : List Completion) : List Int :=
  (completions.filter (fun c => c.status == "completed")).map Completion.completed_date

/-- `sorted(...)` applied to the completed dates (Python's `sorted` is a
stable ascending sort). -/
def completed_dates (completions : List Completion) : List Int :=
  (completedDatesList completions).insertionSort (· ≤ ·)

/-- The set `{c.completed_date for c in completions if c.status == "skipped"}`;
set membership is modelled by list membership. -/
def skipped_dates (completions : List Completion) : List Int :=
  (completions.filter (fun c => c.status == "skipped")).map Completion.completed_date

/-- The inner `while check < curr:` loop of `calculate_longest_streak`: it
tests every day strictly between `prev` and `curr` for membership in the
skipped-date set, i.e. the days `prev + 1 + k` for `k < (curr - prev - 1)`. -/
def all_gap_days_skipped (sk : List Int) (prev curr : Int) : Bool :=
  (List.range (curr - prev - 1).toNat).all (fun k => sk.contains (prev + 1 + k))

/-- The `for i in range(1, len(completed_dates)):` scan of
`calculate_longest_streak`, carrying `prev` (the previous completed date) and
the loop variables `current` and `longest`. -/
def longestGo (sk : List Int) (prev : Int) (current longest : Nat) :
    List Int → Nat
  | [] => longest
  | curr :: rest =>
      let gap := curr - prev
      let current' :=
        if gap = 1 then current + 1
        else if gap > 1 then
          if all_gap_days_skipped sk prev curr then current + 1 else 1
        else current
      longestGo sk curr current' (max longest current') rest

/-- `calculate_longest_streak` from the source. -/
def calculate_longest_streak (completions : List Completion) : Nat :=
  if completions.isEmpty then 0
  else
    match completed_dates completions with
    | [] => 0
    | d :: rest => longestGo (skipped_dates completions) d 1 1 rest

/-- Round-half-to-even on rationals, the rounding mode of Python's built-in
`round`. -/
def roundHalfEven (q : ℚ) : Int :=
  let f := ⌊q⌋
  if q - f < 1 / 2 then f
  else if 1 / 2 < q - f then f + 1
  else if f % 2 = 0 then f else f + 1

/-- Python's `round(q, 1)`: round to one decimal digit, ties to even.  The
source computes with IEEE doubles; the model computes with exact rationals,
the standard idealisation for its arithmetic. -/
def pyRound1 (q : ℚ) : ℚ := (roundHalfEven (q * 10) : ℚ) / 10

/-- `calculate_completion_rate` from the source. -/
def calculate_completion_rate (habit : Habit) (completions : List Completion)
    (today : Int) : ℚ :=
  let created := habit.created_at
  let total_days := today - created + 1
  if total_days ≤ 0 then 0
  else
    let completed_count :=
      completions.countP
        (fun c => c.status == "completed" && created ≤ c.completed_date)
    pyRound1 ((completed_count : ℚ) / (total_days : ℚ) * 100)

/-- `is_completed_today` from the source. -/
def is_completed_today (completions : List Completion) (today : Int) : Bool :=
  completions.any (fun c => c.completed_date == today && c.status == "completed")

/-- The `while True:` loop of `calculate_streak`, step-indexed: `none` means
the loop has not yet exited within `fuel` iterations.  Used to state that the
unbounded loop terminates. -/
def streakLoopFuel (completions : List Completion) (today : Int) :
    Nat → Nat → Int → Option Nat
  | 0, _, _ => none
  | fuel + 1, streak, check_date =>
      match completion_map completions check_date with
      | some st =>
          streakLoopFuel completions today fuel
            (if st == "completed" then streak + 1 else streak)
            (_prev_day check_date)
      | none =>
          if streak > 0 then some streak
          else
            let cd := _prev_day check_date
            if today - cd > 1 then some streak
            else streakLoopFuel completions today fuel streak cd

/-- Comparison definition for claim C3, following the spec wording: a gap
between consecutive completed dates keeps the run unbroken exactly when
every intermediate day strictly between them (here: every day of
`Finset.Icc (prev+1) (curr-1)`) is in the skipped-date set. -/
def spec_bridged (sk : List Int) (prev curr : Int) : Bool :=
  @decide (∀ d ∈ Finset.Icc (prev + 1) (curr - 1), sk.contains d = true)
    Finset.decidableDforallFinset

/-- Comparison definition for claim C3, following the spec wording: the run
value observed at each consecutive pair of the sorted completed dates
(extended by 1 when the gap is bridged, reset to 1 otherwise; a gap of
exactly one day is vacuously bridged). -/
def specRuns (sk : List Int) (prev : Int) (current : Nat) : List Int → List Nat
  | [] => []
  | curr :: rest =>
      let current' := if spec_bridged sk prev curr then current + 1 else 1
      current' :: specRuns sk curr current' rest

/-- Comparison definition for claim C3, following the spec wording: the
longest streak is the maximum run observed across the scan, with the initial
run equal to 1 (accounting for the first completed date). -/
def specLongest (completions : List Completion) : Nat :=
  match completed_dates completions with
  | [] => 0
  | d :: rest =>
      (1 :: specRuns (skipped_dates completions) d 1 rest).foldr max 0

/-- Whether two consecutive completed dates extend the current run in the
`calculate_longest_streak` scan: a one-day gap, or a longer gap whose
intermediate days are all skipped. -/
def extendsRun (sk : List Int) (a b : Int) : Prop :=
  b - a = 1 ∨ (b - a > 1 ∧ all_gap_days_skipped sk a b = true)

/-- Events of spec scenario 2 (claim C4), with calendar dates of March 2024
modelled by their day of month: `2024-03-09` completed, `2024-03-07`
completed, `2024-03-08` skipped; the reference date `2024-03-10` is `10`. -/
def c4_events : List Completion :=
  [⟨9, "completed"⟩, ⟨7, "completed"⟩, ⟨8, "skipped"⟩]

/-- Events for the claim C1 counterexample: a skipped entry on `today` and a
completed entry two days before, with the day in between unlogged. -/
def c1_events : List Completion := [⟨10, "skipped"⟩, ⟨8, "completed"⟩]

/-- Habit for claim C6: created on day 0. -/
def c6_habit : Habit := ⟨0⟩

/-- Events for claim C6: two completed events on distinct dates on or after
creation, one of them after the reference date. -/
def c6_events : List Completion := [⟨0, "completed"⟩, ⟨3, "completed"⟩]

/-- Habit for the claim C5 witness: created on day 0. -/
def c5_habit : Habit := ⟨0⟩

/-- Events for the claim C5 witness. -/
def c5_events : List Completion := [⟨0, "completed"⟩]

/-- Events for the claim C9 witness: one completed event on the reference
date. -/
def c9_events : List Completion := [⟨10, "completed"⟩]

/-! ### General lemmas about the streak walk -/

theorem streakGo_eq (cs : List Completion) (today : Int) (streak : Nat) (cd : Int) :
    streakGo cs today streak cd =
      match completion_map cs cd with
      | some st =>
          streakGo cs today (if st == "completed" then streak + 1 else streak)
            (_prev_day cd)
      | none =>
          if streak > 0 then streak
          else if today - _prev_day cd > 1 then streak
          else streakGo cs today streak (_prev_day cd) := by
  conv_lhs => rw [streakGo]
  rcases hm : completion_map cs cd with _ | st <;> simp [hm]

theorem streakGo_ge (cs : List Completion) (today : Int) (s : Nat) (cd : Int) :
    streakGo cs today s cd ≥ s := by
  induction s, cd using streakGo.induct cs today with
  | case1 s cd st hmap ih =>
    rw [streakGo_eq, hmap]
    dsimp only
    by_cases hc : (st == "completed") = true
    · simp only [dif_pos hc] at ih
      rw [if_pos hc]
      omega
    · simp only [dif_neg hc] at ih
      rw [if_neg hc]
      exact ih
  | case2 s cd hmap hs =>
    rw [streakGo_eq, hmap]
    dsimp only
    rw [if_pos hs]
  | case3 s cd hmap hs cdl hbd =>
    rw [streakGo_eq, hmap]
    dsimp only
    rw [if_neg hs, if_pos hbd]
  | case4 s cd hmap hs cdl hbd ih =>
    rw [streakGo_eq, hmap]
    dsimp only
    rw [if_neg hs, if_neg hbd]
    exact ih

/-! ### Easy claims -/

theorem pyRound1_zero : pyRound1 0 = 0 := by
  norm_num [pyRound1, roundHalfEven]

/-- C8: `is_completed_today` returns true if and only if the event list
contains an event dated exactly `today` with status Completed; in
particular an event dated `today` with status Skipped does not make it
true. -/
theorem C8_completed_today_iff (cs : List Completion) (today : Int) :
    is_completed_today cs today = true ↔
      ∃ c ∈ cs, c.completed_date = today ∧ c.status = "completed" := by
  simp [is_completed_today, List.any_eq_true, Bool.and_eq_true, beq_iff_eq]

/-- C7: on an empty event collection, for every reference date and habit
creation date, the current streak is 0, the longest streak is 0, the
completion rate is 0.0 and completed-today is false. -/
theorem C7_empty_collection (habit : Habit) (today : Int) :
    calculate_streak [] today = 0 ∧ calculate_longest_streak [] = 0 ∧
      calculate_completion_rate habit [] today = 0 ∧
      is_completed_today [] today = false := by
  refine ⟨by simp [calculate_streak], rfl, ?_, rfl⟩
  unfold calculate_completion_rate
  dsimp only
  split
  · rfl
  · simp [List.countP_nil, pyRound1_zero]

/-- C6: `calculate_completion_rate` applies no upper clamp at 100.0: on a
well-formed input (distinct event dates) with a Completed event dated after
`today` but on or after creation, the returned rate strictly exceeds
100.0. -/
theorem C6_no_upper_clamp :
    (c6_events.map Completion.completed_date).Nodup ∧
      (100 : ℚ) < calculate_completion_rate c6_habit c6_events 0 := by
  constructor
  · decide
  · norm_num [calculate_completion_rate, c6_habit, c6_events, pyRound1,
      roundHalfEven, List.countP_cons, List.countP_nil]

/-- C5: `calculate_completion_rate` computes
`totalDays = (today - habitCreatedDate) + 1`, returns 0.0 whenever
`totalDays ≤ 0`, and otherwise counts exactly the Completed events dated on
or after the creation date (excluding Completed events dated before
creation, never counting Skipped events) and returns
`round(completedCount / totalDays * 100, 1)`. -/
theorem C5_completion_rate (habit : Habit) (cs : List Completion) (today : Int) :
    (today - habit.created_at + 1 ≤ 0 →
      calculate_completion_rate habit cs today = 0) ∧
    (0 < today - habit.created_at + 1 →
      calculate_completion_rate habit cs today =
        pyRound1
          (((cs.filter fun c =>
                c.status = "completed" ∧ habit.created_at ≤ c.completed_date).length : ℚ)
            / ((today - habit.created_at + 1 : Int) : ℚ) * 100)) := by
  constructor
  · intro h
    unfold calculate_completion_rate
    dsimp only
    rw [if_pos h]
  · intro h
    unfold calculate_completion_rate
    dsimp only
    rw [if_neg (by omega)]
    have hfil :
        cs.filter
            (fun c => c.status == "completed" && decide (habit.created_at ≤ c.completed_date))
          = cs.filter
            (fun c => decide (c.status = "completed" ∧ habit.created_at ≤ c.completed_date)) := by
      apply List.filter_congr
      intro c _
      by_cases h1 : c.status = "completed"
      · by_cases h2 : habit.created_at ≤ c.completed_date
        · simp [h1, h2]
        · simp [h1, h2]
      · simp [h1]
    rw [List.countP_eq_length_filter, hfil]

/-- Witness for C5 at a concrete input: habit created on day 0, one
completed event on day 0, reference date 0. -/
theorem C5_witness :
    0 < (0 : Int) - c5_habit.created_at + 1 ∧
      calculate_completion_rate c5_habit c5_events 0 =
        pyRound1
          (((c5_events.filter fun c =>
                c.status = "completed" ∧ c5_habit.created_at ≤ c.completed_date).length : ℚ)
            / (((0 : Int) - c5_habit.created_at + 1 : Int) : ℚ) * 100) :=
  ⟨by norm_num [c5_habit],
    (C5_completion_rate c5_habit c5_events 0).2 (by norm_num [c5_habit])⟩

/-- C4: spec scenario 2 (dates of March 2024 given by day of month):
with `today = 10` and events completed on 9, completed on 7, skipped on 8,
the current streak is 2 and the longest streak is 2. -/
theorem C4_scenario2 :
    calculate_streak c4_events 10 = 2 ∧ calculate_longest_streak c4_events = 2 := by
  constructor
  · unfold calculate_streak
    rw [if_neg (by decide)]
    rw [streakGo_eq]; norm_num [c4_events, completion_map, _prev_day]
    rw [streakGo_eq]; norm_num [c4_events, completion_map, _prev_day]
    rw [streakGo_eq]; norm_num [c4_events, completion_map, _prev_day]
    rw [streakGo_eq]; norm_num [c4_events, completion_map, _prev_day]
    rw [streakGo_eq]; norm_num [c4_events, completion_map, _prev_day]
    decide
  · decide

/-! ### Claim C1: the no-entry branch of the streak walk -/

/-- C1 counterexample: the claim says that whenever the walk reaches a
no-entry day with the streak counter still zero (also after Skipped days),
it moves to the prior day and checks that day's entry once more, terminating
with streak 0 only if the prior day also lacks an entry.  This is false on
the code: with events skipped on day 10 and completed on day 8, reference
date 10, the walk reaches day 9 with streak 0, day 8 has an entry, yet the
walk stops at 0 instead of continuing to day 8 (which would yield 1). -/
theorem C1_counterexample :
    ¬ (∀ (cs : List Completion) (today check_date : Int) (streak : Nat),
        completion_map cs check_date = none → streak = 0 →
        (completion_map cs (check_date - 1)).isSome = true →
        streakGo cs today streak check_date =
          streakGo cs today streak (check_date - 1)) := by
  intro h
  have h1 := h c1_events 10 9 0 (by decide) rfl (by decide)
  have e1 : streakGo c1_events 10 0 9 = 0 := by
    rw [streakGo_eq]; norm_num [c1_events, completion_map, _prev_day]
  have e2 : streakGo c1_events 10 0 8 = 1 := by
    rw [streakGo_eq]; norm_num [c1_events, completion_map, _prev_day]
    rw [streakGo_eq]; norm_num [c1_events, completion_map, _prev_day]
  have h9 : (9 : Int) - 1 = 8 := by norm_num
  rw [h9, e1, e2] at h1
  exact absurd h1 (by norm_num)

/-- C1 amended: when the walk reaches a day with no entry, it terminates
immediately with the current streak if the counter is positive; if the
counter is still zero it terminates with 0 whenever the no-entry day lies
strictly before `today` (without examining the prior day's entry), and it
moves to the prior day and continues only when the no-entry day is `today`
itself (or later).  The one-day backward tolerance therefore applies only at
`today`, not after Skipped days have moved the walk into the past. -/
theorem C1_no_entry_branch (cs : List Completion) (today check_date : Int)
    (streak : Nat) (h : completion_map cs check_date = none) :
    (0 < streak → streakGo cs today streak check_date = streak) ∧
    (streak = 0 → check_date < today →
      streakGo cs today streak check_date = 0) ∧
    (streak = 0 → today ≤ check_date →
      streakGo cs today streak check_date =
        streakGo cs today streak (check_date - 1)) := by
  refine ⟨?_, ?_, ?_⟩
  · intro hs
    rw [streakGo_eq, h]
    dsimp only
    rw [if_pos hs]
  · rintro rfl hlt
    rw [streakGo_eq, h]
    dsimp only
    rw [if_neg (by omega)]
    have hbd : today - _prev_day check_date > 1 := by
      simp only [_prev_day]
      omega
    rw [if_pos hbd]
  · rintro rfl hle
    rw [streakGo_eq, h]
    dsimp only
    rw [if_neg (by omega)]
    have hbd : ¬ today - _prev_day check_date > 1 := by
      simp only [_prev_day]
      omega
    rw [if_neg hbd]
    rfl

/-- Witness for C1 at a concrete input: with the counterexample events,
reference date 10, the walk at no-entry day 9 with streak 0 terminates with
0 because 9 lies strictly before 10. -/
theorem C1_witness :
    completion_map c1_events 9 = none ∧ (9 : Int) < 10 ∧
      streakGo c1_events 10 0 9 = 0 :=
  ⟨by decide, by norm_num,
    (C1_no_entry_branch c1_events 10 9 0 (by decide)).2.1 rfl (by norm_num)⟩

/-! ### Claim C10: termination of the while-True loop -/

theorem streakLoopFuel_mono (cs : List Completion) (today : Int) :
    ∀ (fuel fuel' : Nat) (s : Nat) (cd : Int) (r : Nat), fuel ≤ fuel' →
      streakLoopFuel cs today fuel s cd = some r →
      streakLoopFuel cs today fuel' s cd = some r := by
  intro fuel
  induction fuel with
  | zero =>
    intro fuel' s cd r _ hr
    simp [streakLoopFuel] at hr
  | succ n ih =>
    intro fuel' s cd r hle hr
    obtain ⟨m, rfl⟩ : ∃ m, fuel' = m + 1 := ⟨fuel' - 1, by omega⟩
    rw [streakLoopFuel] at hr ⊢
    rcases hm : completion_map cs cd with _ | st <;> rw [hm] at hr
    · dsimp only at hr ⊢
      by_cases hs : s > 0
      · rw [if_pos hs] at hr ⊢
        exact hr
      · rw [if_neg hs] at hr ⊢
        by_cases hbd : today - _prev_day cd > 1
        · rw [if_pos hbd] at hr ⊢
          exact hr
        · rw [if_neg hbd] at hr ⊢
          exact ih m _ _ r (by omega) hr
    · dsimp only at hr ⊢
      exact ih m _ _ r (by omega) hr

theorem streakGo_loopFuel (cs : List Completion) (today : Int) :
    ∀ (s : Nat) (cd : Int), ∃ fuel : Nat,
      streakLoopFuel cs today fuel s cd = some (streakGo cs today s cd) := by
  intro s cd
  induction s, cd using streakGo.induct cs today with
  | case1 s cd st hmap ih =>
    by_cases hc : (st == "completed") = true
    · simp only [dif_pos hc] at ih
      obtain ⟨f, hf⟩ := ih
      refine ⟨f + 1, ?_⟩
      rw [streakLoopFuel, hmap]
      dsimp only
      rw [if_pos hc]
      rw [streakGo_eq, hmap]
      dsimp only
      rw [if_pos hc]
      exact hf
    · simp only [dif_neg hc] at ih
      obtain ⟨f, hf⟩ := ih
      refine ⟨f + 1, ?_⟩
      rw [streakLoopFuel, hmap]
      dsimp only
      rw [if_neg hc]
      rw [streakGo_eq, hmap]
      dsimp only
      rw [if_neg hc]
      exact hf
  | case2 s cd hmap hs =>
    refine ⟨1, ?_⟩
    rw [streakLoopFuel, hmap]
    dsimp only
    rw [if_pos hs, streakGo_eq, hmap]
    dsimp only
    rw [if_pos hs]
  | case3 s cd hmap hs cdl hbd =>
    refine ⟨1, ?_⟩
    rw [streakLoopFuel, hmap]
    dsimp only
    rw [if_neg hs, if_pos hbd, streakGo_eq, hmap]
    dsimp only
    rw [if_neg hs, if_pos hbd]
  | case4 s cd hmap hs cdl hbd ih =>
    obtain ⟨f, hf⟩ := ih
    refine ⟨f + 1, ?_⟩
    rw [streakLoopFuel, hmap]
    dsimp only
    rw [if_neg hs, if_neg hbd, streakGo_eq, hmap]
    dsimp only
    rw [if_neg hs, if_neg hbd]
    exact hf

theorem streakGo_empty (today : Int) :
    streakGo [] today 0 today = 0 := by
  rw [streakGo_eq]
  have hm : completion_map [] today = none := rfl
  rw [hm]
  dsimp only
  rw [if_neg (by omega)]
  have hbd : ¬ today - _prev_day today > 1 := by
    simp only [_prev_day]; omega
  rw [if_neg hbd, streakGo_eq]
  have hm2 : completion_map [] (_prev_day today) = none := rfl
  rw [hm2]
  dsimp only
  rw [if_neg (by omega)]
  have hbd2 : today - _prev_day (_prev_day today) > 1 := by
    simp only [_prev_day]; omega
  rw [if_pos hbd2]

/-- C10: the unbounded backward walk (`while True:`) of `calculate_streak`
terminates for every finite event list and every reference date: there is a
number of iterations within which the step-indexed loop exits, and the value
it returns is the (total, non-negative) result of `calculate_streak`. -/
theorem C10_loop_terminates (cs : List Completion) (today : Int) :
    ∃ fuel : Nat,
      streakLoopFuel cs today fuel 0 today = some (calculate_streak cs today) := by
  obtain ⟨fuel, hf⟩ := streakGo_loopFuel cs today 0 today
  refine ⟨fuel, ?_⟩
  unfold calculate_streak
  rcases hcs : cs.isEmpty with _ | _
  · rw [if_neg (by simp [hcs])]
    exact hf
  · rw [if_pos (by simp [hcs])]
    have : cs = [] := List.isEmpty_iff.mp hcs
    subst this
    rw [streakGo_empty] at hf
    exact hf

/-! ### Claim C9: monotonicity of the current streak under a fresh completed event -/

theorem completion_map_cons_ne (c0 : Completion) (cs : List Completion) (x : Int)
    (hx : x ≠ c0.completed_date) :
    completion_map (c0 :: cs) x = completion_map cs x := by
  unfold completion_map
  rw [List.reverse_cons, List.find?_append]
  have h0 : [c0].find? (fun c => c.completed_date == x) = none := by
    simp [List.find?_cons_of_neg, Ne.symm hx]
  rw [h0]
  cases hf : cs.reverse.find? (fun c => c.completed_date == x) <;> simp [hf]

theorem completion_map_cons_self (c0 : Completion) (cs : List Completion)
    (hnone : completion_map cs c0.completed_date = none) :
    completion_map (c0 :: cs) c0.completed_date = some c0.status := by
  unfold completion_map at *
  rw [List.reverse_cons, List.find?_append]
  have hf : cs.reverse.find? (fun c => c.completed_date == c0.completed_date) = none :=
    Option.map_eq_none'.mp hnone
  rw [hf]
  simp [List.find?_cons_of_pos]

theorem streakGo_cons_le_below (c0 : Completion) (cs : List Completion) (today : Int)
    (hst : c0.status = "completed")
    (hfresh : completion_map cs c0.completed_date = none) :
    ∀ (a : Nat) (cd : Int), cd < today →
      streakGo cs today a cd ≤ streakGo (c0 :: cs) today (a + 1) cd := by
  intro a cd
  induction a, cd using streakGo.induct cs today with
  | case1 a cd st hmap ih =>
    intro hlt
    have hne : cd ≠ c0.completed_date := by
      intro he
      rw [he, hfresh] at hmap
      cases hmap
    have hm' : completion_map (c0 :: cs) cd = completion_map cs cd :=
      completion_map_cons_ne c0 cs cd hne
    rw [streakGo_eq, hmap]
    conv_rhs => rw [streakGo_eq, hm', hmap]
    dsimp only
    by_cases hc : (st == "completed") = true
    · simp only [dif_pos hc] at ih
      simp only [if_pos hc]
      exact ih (by have := hlt; simp only [_prev_day]; omega)
    · simp only [dif_neg hc] at ih
      simp only [if_neg hc]
      exact ih (by have := hlt; simp only [_prev_day]; omega)
  | case2 a cd hmap hs =>
    intro hlt
    rw [streakGo_eq, hmap]
    dsimp only
    rw [if_pos hs]
    by_cases hcd : cd = c0.completed_date
    · subst hcd
      have hm' := completion_map_cons_self c0 cs hfresh
      rw [streakGo_eq, hm']
      dsimp only
      rw [if_pos (by simp [hst])]
      calc a ≤ a + 1 + 1 := by omega
        _ ≤ streakGo (c0 :: cs) today (a + 1 + 1) (_prev_day c0.completed_date) :=
          streakGo_ge (c0 :: cs) today (a + 1 + 1) (_prev_day c0.completed_date)
    · have hm' : completion_map (c0 :: cs) cd = completion_map cs cd :=
        completion_map_cons_ne c0 cs cd hcd
      rw [streakGo_eq, hm', hmap]
      dsimp only
      rw [if_pos (by omega)]
      omega
  | case3 a cd hmap hs cdl hbd =>
    intro hlt
    rw [streakGo_eq, hmap]
    dsimp only
    rw [if_neg hs, if_pos hbd]
    have ha : a = 0 := by omega
    subst ha
    exact Nat.zero_le _
  | case4 a cd hmap hs cdl hbd ih =>
    intro hlt
    exfalso
    have hpd : _prev_day cd = cd - 1 := rfl
    simp only [cdl, hpd] at hbd
    omega

theorem streakGo_cons_le (c0 : Completion) (cs : List Completion) (today : Int)
    (hst : c0.status = "completed")
    (hfresh : completion_map cs c0.completed_date = none) :
    ∀ (s : Nat) (cd : Int), cd ≤ today →
      streakGo cs today s cd ≤ streakGo (c0 :: cs) today s cd := by
  intro s cd
  induction s, cd using streakGo.induct cs today with
  | case1 s cd st hmap ih =>
    intro hle
    have hne : cd ≠ c0.completed_date := by
      intro he
      rw [he, hfresh] at hmap
      cases hmap
    have hm' : completion_map (c0 :: cs) cd = completion_map cs cd :=
      completion_map_cons_ne c0 cs cd hne
    rw [streakGo_eq, hmap]
    conv_rhs => rw [streakGo_eq, hm', hmap]
    dsimp only
    by_cases hc : (st == "completed") = true
    · simp only [dif_pos hc] at ih
      simp only [if_pos hc]
      exact ih (by have := hle; simp only [_prev_day]; omega)
    · simp only [dif_neg hc] at ih
      simp only [if_neg hc]
      exact ih (by have := hle; simp only [_prev_day]; omega)
  | case2 s cd hmap hs =>
    intro hle
    rw [streakGo_eq, hmap]
    dsimp only
    rw [if_pos hs]
    by_cases hcd : cd = c0.completed_date
    · subst hcd
      have hm' := completion_map_cons_self c0 cs hfresh
      rw [streakGo_eq, hm']
      dsimp only
      rw [if_pos (by simp [hst])]
      calc s ≤ s + 1 := by omega
        _ ≤ streakGo (c0 :: cs) today (s + 1) (_prev_day c0.completed_date) :=
          streakGo_ge (c0 :: cs) today (s + 1) (_prev_day c0.completed_date)
    · have hm' : completion_map (c0 :: cs) cd = completion_map cs cd :=
        completion_map_cons_ne c0 cs cd hcd
      rw [streakGo_eq, hm', hmap]
      dsimp only
      rw [if_pos (by omega)]
  | case3 s cd hmap hs cdl hbd =>
    intro hle
    rw [streakGo_eq, hmap]
    dsimp only
    rw [if_neg hs, if_pos hbd]
    have hs0 : s = 0 := by omega
    subst hs0
    exact Nat.zero_le _
  | case4 s cd hmap hs cdl hbd ih =>
    intro hle
    have hpd : _prev_day cd = cd - 1 := rfl
    have hcdt : cd = today := by
      simp only [cdl, hpd] at hbd
      omega
    have hs0 : s = 0 := by omega
    rw [streakGo_eq, hmap]
    dsimp only
    rw [if_neg hs, if_neg hbd]
    by_cases hcd : cd = c0.completed_date
    · subst hcd
      have hm' := completion_map_cons_self c0 cs hfresh
      conv_rhs => rw [streakGo_eq, hm']
      dsimp only
      rw [if_pos (by simp [hst])]
      subst hs0
      exact streakGo_cons_le_below c0 cs today hst hfresh 0 (_prev_day c0.completed_date)
        (by simp only [_prev_day]; omega)
    · have hm' : completion_map (c0 :: cs) cd = completion_map cs cd :=
        completion_map_cons_ne c0 cs cd hcd
      conv_rhs => rw [streakGo_eq, hm', hmap]
      dsimp only
      rw [if_neg hs, if_neg hbd]
      exact ih (by simp only [cdl, hpd]; omega)

/-- C9: holding `today` and all other events fixed, adding a Completed event
on a fresh date `d` (no existing entry at `d`) whose run extends the
consecutive-from-today walk (every day strictly between `d` and `today`
carries an entry) never decreases `calculate_streak`. -/
theorem C9_streak_monotone (cs : List Completion) (today d : Int)
    (hfresh : completion_map cs d = none)
    (hext : ∀ x : Int, d < x → x ≤ today → (completion_map cs x).isSome = true) :
    calculate_streak cs today ≤
      calculate_streak ({ completed_date := d, status := "completed" } :: cs) today := by
  unfold calculate_streak
  rw [if_neg (show ¬(({ completed_date := d, status := "completed" } :: cs) :
      List Completion).isEmpty = true by simp)]
  by_cases hcs : cs.isEmpty = true
  · rw [if_pos hcs]
    exact Nat.zero_le _
  · rw [if_neg hcs]
    exact streakGo_cons_le ⟨d, "completed"⟩ cs today rfl hfresh 0 today le_rfl

/-- Witness for C9 at a concrete input: one completed event on day 10,
reference date 10, fresh date 9 extending the run; the streak does not
decrease (it goes from 1 to 2). -/
theorem C9_witness :
    completion_map c9_events 9 = none ∧
      calculate_streak c9_events 10 ≤
        calculate_streak ({ completed_date := 9, status := "completed" } :: c9_events) 10 :=
  ⟨by decide,
    C9_streak_monotone c9_events 10 9 (by decide)
      (fun x h1 h2 => by
        have hx : x = 10 := by omega
        subst hx
        decide)⟩

/-! ### Claim C3: the longest-streak scan against its specification -/

theorem all_gap_days_skipped_iff (sk : List Int) (a b : Int) :
    all_gap_days_skipped sk a b = true ↔
      ∀ d : Int, a < d → d < b → sk.contains d = true := by
  unfold all_gap_days_skipped
  rw [List.all_eq_true]
  constructor
  · intro h d h1 h2
    have hk : (d - a - 1).toNat ∈ List.range (b - a - 1).toNat := by
      rw [List.mem_range]
      omega
    have hc := h _ hk
    have he : a + 1 + (((d - a - 1).toNat : Nat) : Int) = d := by omega
    rwa [he] at hc
  · intro h k hk
    rw [List.mem_range] at hk
    apply h
    · omega
    · omega

theorem spec_bridged_iff (sk : List Int) (a b : Int) :
    spec_bridged sk a b = true ↔
      ∀ d : Int, a < d → d < b → sk.contains d = true := by
  unfold spec_bridged
  rw [decide_eq_true_eq]
  constructor
  · intro h d h1 h2
    exact h d (Finset.mem_Icc.mpr (by omega))
  · intro h d hd
    rw [Finset.mem_Icc] at hd
    exact h d (by omega) (by omega)

theorem all_gap_eq_spec_bridged (sk : List Int) (a b : Int) :
    all_gap_days_skipped sk a b = spec_bridged sk a b := by
  rw [Bool.eq_iff_iff, all_gap_days_skipped_iff, spec_bridged_iff]

theorem code_step_eq_spec_step (sk : List Int) (prev curr : Int) (current : Nat)
    (h : prev < curr) :
    (if curr - prev = 1 then current + 1
     else if curr - prev > 1 then
       if all_gap_days_skipped sk prev curr then current + 1 else 1
     else current) =
    (if spec_bridged sk prev curr then current + 1 else 1) := by
  by_cases h1 : curr - prev = 1
  · have hb : spec_bridged sk prev curr = true := by
      rw [spec_bridged_iff]
      intro d hd1 hd2
      exfalso
      omega
    rw [if_pos h1, if_pos hb]
  · rw [if_neg h1]
    have h2 : curr - prev > 1 := by omega
    rw [if_pos h2, all_gap_eq_spec_bridged]

theorem longestGo_eq_specRuns (sk : List Int) :
    ∀ (l : List Int) (prev : Int) (current longest : Nat),
      List.Chain (· < ·) prev l →
      longestGo sk prev current longest l =
        max longest ((specRuns sk prev current l).foldr max 0) := by
  intro l
  induction l with
  | nil =>
    intro prev current longest _
    simp [longestGo, specRuns]
  | cons c rest ih =>
    intro prev current longest hch
    cases hch with
    | cons hlt hch' =>
      rw [longestGo, specRuns]
      rw [code_step_eq_spec_step sk prev c current hlt]
      rw [ih c _ _ hch']
      rw [List.foldr_cons, Nat.max_assoc]

/-- C3: on inputs whose Completed dates are pairwise distinct (the engine's
uniqueness invariant), `calculate_longest_streak` computes exactly the
spec-described scan: for every consecutive pair of the ascending-sorted
Completed dates the run extends by 1 when the gap is one day, extends by 1
on a longer gap exactly when every intermediate day carries a Skipped event
and resets to 1 otherwise, and the result is the maximum run observed with
the initial run equal to 1. -/
theorem C3_longest_scan (cs : List Completion)
    (hnd : (completedDatesList cs).Nodup) :
    calculate_longest_streak cs = specLongest cs := by
  unfold calculate_longest_streak specLongest
  rcases hM : completed_dates cs with _ | ⟨d, rest⟩
  · by_cases hcs : cs.isEmpty = true
    · rw [if_pos hcs]
    · rw [if_neg hcs]
  · have hne : ¬ cs.isEmpty = true := by
      intro he
      have hnil : cs = [] := List.isEmpty_iff.mp he
      subst hnil
      simp [completed_dates, completedDatesList] at hM
    rw [if_neg hne]
    dsimp only
    have hsorted : List.Sorted (· ≤ ·) (completed_dates cs) :=
      List.sorted_insertionSort _ _
    have hndM : (completed_dates cs).Nodup :=
      (List.perm_insertionSort _ _).nodup_iff.mpr hnd
    have hpl : List.Pairwise (· < ·) (completed_dates cs) :=
      (hsorted.and hndM).imp (fun hab => lt_of_le_of_ne hab.1 hab.2)
    rw [hM] at hpl
    have hch : List.Chain (· < ·) d rest := List.chain_iff_pairwise.mpr hpl
    rw [longestGo_eq_specRuns (skipped_dates cs) rest d 1 1 hch]
    rw [List.foldr_cons]

/-- Witness for C3 at a concrete input: the scenario-2 events have pairwise
distinct Completed dates, and the scan equals its specification there. -/
theorem C3_witness :
    (completedDatesList c4_events).Nodup ∧
      calculate_longest_streak c4_events = specLongest c4_events :=
  ⟨by decide, C3_longest_scan c4_events (by decide)⟩

/-! ### Claim C2: scan lower-bound lemmas for `longestGo` -/

/-- The update of `current` performed by one iteration of the
`calculate_longest_streak` scan. -/
def stepVal (sk : List Int) (prev curr : Int) (current : Nat) : Nat :=
  if curr - prev = 1 then current + 1
  else if curr - prev > 1 then
    if all_gap_days_skipped sk prev curr then current + 1 else 1
  else current

theorem longestGo_cons (sk : List Int) (prev : Int) (current longest : Nat)
    (c : Int) (rest : List Int) :
    longestGo sk prev current longest (c :: rest) =
      longestGo sk c (stepVal sk prev c current)
        (max longest (stepVal sk prev c current)) rest := by
  rw [longestGo]
  rfl

theorem stepVal_pos (sk : List Int) (prev c : Int) (current : Nat)
    (h : 1 ≤ current) : 1 ≤ stepVal sk prev c current := by
  unfold stepVal
  split_ifs <;> omega

theorem stepVal_of_extendsRun (sk : List Int) (prev c : Int) (current : Nat)
    (h : extendsRun sk prev c) : stepVal sk prev c current = current + 1 := by
  unfold stepVal
  rcases h with h1 | ⟨h2, h3⟩
  · rw [if_pos h1]
  · rw [if_neg (by omega), if_pos h2, if_pos h3]

theorem longestGo_ge_longest (sk : List Int) :
    ∀ (l : List Int) (prev : Int) (current longest : Nat),
      longest ≤ longestGo sk prev current longest l := by
  intro l
  induction l with
  | nil =>
    intro prev current longest
    simp [longestGo]
  | cons c rest ih =>
    intro prev current longest
    rw [longestGo_cons]
    exact le_trans (Nat.le_max_left _ _) (ih c _ _)

theorem longestGo_chain_ge (sk : List Int) :
    ∀ (seg : List Int) (prev : Int) (current longest : Nat) (rest : List Int),
      current ≤ longest → List.Chain (extendsRun sk) prev seg →
      current + seg.length ≤ longestGo sk prev current longest (seg ++ rest) := by
  intro seg
  induction seg with
  | nil =>
    intro prev current longest rest hcl _
    simpa using le_trans hcl (longestGo_ge_longest sk rest prev current longest)
  | cons c seg' ih =>
    intro prev current longest rest hcl hch
    cases hch with
    | cons hlink hch' =>
      rw [List.cons_append, longestGo_cons, stepVal_of_extendsRun sk prev c current hlink]
      have hrec := ih c (current + 1) (max longest (current + 1)) rest
        (Nat.le_max_right _ _) hch'
      calc current + (c :: seg').length = (current + 1) + seg'.length := by
            simp [List.length_cons]
            omega
        _ ≤ _ := hrec

theorem longestGo_reach_ge (sk : List Int) (x : Int) (seg : List Int)
    (hch : List.Chain (extendsRun sk) x seg) :
    ∀ (l1 : List Int) (prev : Int) (current longest : Nat) (rest : List Int),
      1 ≤ current →
      1 + seg.length ≤ longestGo sk prev current longest (l1 ++ x :: (seg ++ rest)) := by
  intro l1
  induction l1 with
  | nil =>
    intro prev current longest rest hcur
    rw [List.nil_append, longestGo_cons]
    have h1 := stepVal_pos sk prev x current hcur
    have h2 := longestGo_chain_ge sk seg x (stepVal sk prev x current)
      (max longest (stepVal sk prev x current)) rest (Nat.le_max_right _ _) hch
    omega
  | cons a l1' ih =>
    intro prev current longest rest hcur
    rw [List.cons_append, longestGo_cons]
    exact ih a _ _ rest (stepVal_pos sk prev a current hcur)

/-! ### Claim C2: extracting a consecutive chain as a contiguous segment of a
sorted list -/

theorem sorted_prefix_extract :
    ∀ (M : List Int) (prev : Int) (L : List Int),
      M.Pairwise (· < ·) → (∀ b ∈ M, prev < b) → (∀ a ∈ L, a ∈ M) →
      List.Chain (fun a b => a < b ∧ ∀ e ∈ M, ¬(a < e ∧ e < b)) prev L →
      ∃ l2, M = L ++ l2 := by
  intro M
  induction M with
  | nil =>
    intro prev L _ _ hLM _
    cases L with
    | nil => exact ⟨[], rfl⟩
    | cons y L' => exact absurd (hLM y (List.mem_cons_self y L')) (List.not_mem_nil y)
  | cons m M' ihM =>
    intro prev L hpw hgt hLM hch
    cases L with
    | nil => exact ⟨m :: M', rfl⟩
    | cons y L' =>
      cases hch with
      | cons hhead hch' =>
        obtain ⟨hpy, hNB⟩ := hhead
        have hm_eq : m = y := by
          have hyM : y ∈ m :: M' := hLM y (List.mem_cons_self y L')
          rcases List.mem_cons.mp hyM with h | h
          · exact h.symm
          · exfalso
            have hmy : m < y := (List.pairwise_cons.mp hpw).1 y h
            exact hNB m (List.mem_cons_self m M')
              ⟨hgt m (List.mem_cons_self m M'), hmy⟩
        subst hm_eq
        have hylt : ∀ a ∈ L', m < a := by
          have hch2 : List.Chain (· < ·) m L' := hch'.imp (fun a b h => h.1)
          exact (List.pairwise_cons.mp (List.chain_iff_pairwise.mp hch2)).1
        have hpw' : M'.Pairwise (· < ·) := (List.pairwise_cons.mp hpw).2
        have hgt' : ∀ b ∈ M', m < b := (List.pairwise_cons.mp hpw).1
        have hLM' : ∀ a ∈ L', a ∈ M' := by
          intro a ha
          rcases List.mem_cons.mp (hLM a (List.mem_cons_of_mem m ha)) with h | h
          · exfalso
            have := hylt a ha
            omega
          · exact h
        have hch'' : List.Chain (fun a b => a < b ∧ ∀ e ∈ M', ¬(a < e ∧ e < b)) m L' :=
          hch'.imp (fun a b h => ⟨h.1, fun e he => h.2 e (List.mem_cons_of_mem m he)⟩)
        obtain ⟨l2, hl2⟩ := ihM m L' hpw' hgt' hLM' hch''
        exact ⟨l2, by rw [List.cons_append, hl2]⟩

theorem sorted_infix_extract :
    ∀ (M : List Int) (x : Int) (L' : List Int),
      M.Pairwise (· < ·) → x ∈ M → (∀ a ∈ L', a ∈ M) →
      List.Chain (fun a b => a < b ∧ ∀ e ∈ M, ¬(a < e ∧ e < b)) x L' →
      ∃ l1 l2, M = l1 ++ (x :: L') ++ l2 := by
  intro M
  induction M with
  | nil =>
    intro x L' _ hx
    exact absurd hx (List.not_mem_nil x)
  | cons m M' ihM =>
    intro x L' hpw hx hLM hch
    by_cases hmx : m = x
    · subst hmx
      have hpw' : M'.Pairwise (· < ·) := (List.pairwise_cons.mp hpw).2
      have hgt' : ∀ b ∈ M', m < b := (List.pairwise_cons.mp hpw).1
      have hmlt : ∀ a ∈ L', m < a := by
        have hch2 : List.Chain (· < ·) m L' := hch.imp (fun a b h => h.1)
        exact (List.pairwise_cons.mp (List.chain_iff_pairwise.mp hch2)).1
      have hLM' : ∀ a ∈ L', a ∈ M' := by
        intro a ha
        rcases List.mem_cons.mp (hLM a ha) with h | h
        · exfalso
          have := hmlt a ha
          omega
        · exact h
      have hch' : List.Chain (fun a b => a < b ∧ ∀ e ∈ M', ¬(a < e ∧ e < b)) m L' :=
        hch.imp (fun a b h => ⟨h.1, fun e he => h.2 e (List.mem_cons_of_mem m he)⟩)
      obtain ⟨l2, hl2⟩ := sorted_prefix_extract M' m L' hpw' hgt' hLM' hch'
      exact ⟨[], l2, by simp [hl2]⟩
    · have hxM' : x ∈ M' := by
        rcases List.mem_cons.mp hx with h | h
        · exact absurd h.symm hmx
        · exact h
      have hLM' : ∀ a ∈ L', a ∈ M' := by
        intro a ha
        have hxa : x < a := by
          have hch2 : List.Chain (· < ·) x L' := hch.imp (fun a b h => h.1)
          exact (List.pairwise_cons.mp (List.chain_iff_pairwise.mp hch2)).1 a ha
        have hm_lt_x : m < x := (List.pairwise_cons.mp hpw).1 x hxM'
        rcases List.mem_cons.mp (hLM a ha) with h | h
        · exfalso
          omega
        · exact h
      have hch' : List.Chain (fun a b => a < b ∧ ∀ e ∈ M', ¬(a < e ∧ e < b)) x L' :=
        hch.imp (fun a b h => ⟨h.1, fun e he => h.2 e (List.mem_cons_of_mem m he)⟩)
      obtain ⟨l1, l2, hl⟩ := ihM x L' (List.pairwise_cons.mp hpw).2 hxM' hLM' hch'
      exact ⟨m :: l1, l2, by rw [List.cons_append, hl]; simp [List.append_assoc]⟩

/-! ### Claim C2: facts about the date lookups under the input invariants -/

theorem contains_iff_mem_int (l : List Int) (a : Int) :
    l.contains a = true ↔ a ∈ l := by
  simp [List.contains_iff_exists_mem_beq, beq_iff_eq]

theorem mem_completedDatesList (cs : List Completion) (d : Int) :
    d ∈ completedDatesList cs ↔
      ∃ c ∈ cs, c.status = "completed" ∧ c.completed_date = d := by
  simp [completedDatesList, List.mem_map, List.mem_filter, beq_iff_eq]
  constructor
  · rintro ⟨c, ⟨hc, hst⟩, hdate⟩
    exact ⟨c, hc, hst, hdate⟩
  · rintro ⟨c, hc, hst, hdate⟩
    exact ⟨c, ⟨hc, hst⟩, hdate⟩

theorem mem_skipped_dates (cs : List Completion) (d : Int) :
    d ∈ skipped_dates cs ↔
      ∃ c ∈ cs, c.status = "skipped" ∧ c.completed_date = d := by
  simp [skipped_dates, List.mem_map, List.mem_filter, beq_iff_eq]
  constructor
  · rintro ⟨c, ⟨hc, hst⟩, hdate⟩
    exact ⟨c, hc, hst, hdate⟩
  · rintro ⟨c, hc, hst, hdate⟩
    exact ⟨c, ⟨hc, hst⟩, hdate⟩

theorem completion_map_of_mem (cs : List Completion)
    (hnd : (cs.map Completion.completed_date).Nodup) :
    ∀ c ∈ cs, completion_map cs c.completed_date = some c.status := by
  induction cs with
  | nil =>
    intro c hc
    cases hc
  | cons a t ih =>
    intro c hc
    have hnd' : (t.map Completion.completed_date).Nodup :=
      (List.nodup_cons.mp (by simpa using hnd)).2
    have hna : a.completed_date ∉ t.map Completion.completed_date :=
      (List.nodup_cons.mp (by simpa using hnd)).1
    rcases List.mem_cons.mp hc with rfl | hct
    · apply completion_map_cons_self
      unfold completion_map
      rw [Option.map_eq_none', List.find?_eq_none]
      intro x hx
      simp only [beq_iff_eq]
      intro he
      exact hna (List.mem_map.mpr ⟨x, List.mem_reverse.mp hx, he⟩)
    · rw [completion_map_cons_ne a t c.completed_date
        (fun he => hna (List.mem_map.mpr ⟨c, hct, he⟩))]
      exact ih hnd' c hct

theorem completion_map_of_mem_completed (cs : List Completion)
    (hnd : (cs.map Completion.completed_date).Nodup) (d : Int)
    (hd : d ∈ completedDatesList cs) :
    completion_map cs d = some "completed" := by
  obtain ⟨c, hc, hst, hdate⟩ := (mem_completedDatesList cs d).mp hd
  subst hdate
  rw [completion_map_of_mem cs hnd c hc, hst]

theorem mem_completedDatesList_of_map (cs : List Completion) (d : Int)
    (h : completion_map cs d = some "completed") :
    d ∈ completedDatesList cs := by
  obtain ⟨c, hc, hdate, hst⟩ := completion_map_some_mem h
  exact (mem_completedDatesList cs d).mpr ⟨c, hc, hst, hdate⟩

/-! ### Claim C2: a consecutive chain of completed dates bounds the longest
streak from below -/

/-- The invariant relation between successive completed dates counted by the
backward walk: ascending, extending the scan's run, and with no other
completed date strictly between them. -/
def chainR (cs : List Completion) (a b : Int) : Prop :=
  a < b ∧ extendsRun (skipped_dates cs) a b ∧
    ∀ e : Int, a < e → e < b → e ∉ completedDatesList cs

theorem chain_le_longest (cs : List Completion)
    (hnd : (cs.map Completion.completed_date).Nodup)
    (x : Int) (L' : List Int)
    (hmem : ∀ a ∈ x :: L', a ∈ completedDatesList cs)
    (hch : List.Chain (chainR cs) x L') :
    (x :: L').length ≤ calculate_longest_streak cs := by
  have hndC : (completedDatesList cs).Nodup := by
    refine List.Nodup.sublist ?_ hnd
    exact List.Sublist.map Completion.completed_date (List.filter_sublist cs)
  have hsorted : List.Sorted (· ≤ ·) (completed_dates cs) :=
    List.sorted_insertionSort _ _
  have hndM : (completed_dates cs).Nodup :=
    (List.perm_insertionSort _ _).nodup_iff.mpr hndC
  have hpw : (completed_dates cs).Pairwise (· < ·) :=
    (hsorted.and hndM).imp (fun hab => lt_of_le_of_ne hab.1 hab.2)
  have hmemM : ∀ a : Int, a ∈ completedDatesList cs ↔ a ∈ completed_dates cs :=
    fun a => (List.mem_insertionSort (· ≤ ·)).symm
  have hchI : List.Chain
      (fun a b => a < b ∧ ∀ e ∈ completed_dates cs, ¬(a < e ∧ e < b)) x L' := by
    refine hch.imp (fun a b h => ⟨h.1, ?_⟩)
    intro e heM hand
    exact h.2.2 e hand.1 hand.2 ((hmemM e).mpr heM)
  obtain ⟨l1, l2, hM⟩ := sorted_infix_extract (completed_dates cs) x L' hpw
    ((hmemM x).mp (hmem x (List.mem_cons_self x L')))
    (fun a ha => (hmemM a).mp (hmem a (List.mem_cons_of_mem x ha))) hchI
  have hchE : List.Chain (extendsRun (skipped_dates cs)) x L' :=
    hch.imp (fun a b h => h.2.1)
  have hcsne : ¬ cs.isEmpty = true := by
    intro he
    have hnil : cs = [] := List.isEmpty_iff.mp he
    subst hnil
    have hx := hmem x (List.mem_cons_self x L')
    simp [completedDatesList] at hx
  unfold calculate_longest_streak
  rw [if_neg hcsne]
  rcases l1 with _ | ⟨a, l1'⟩
  · simp only [List.nil_append, List.cons_append] at hM
    rw [hM]
    dsimp only
    have := longestGo_chain_ge (skipped_dates cs) L' x 1 1 l2 le_rfl hchE
    simp only [List.length_cons]
    omega
  · simp only [List.cons_append, List.append_assoc] at hM
    rw [hM]
    dsimp only
    have := longestGo_reach_ge (skipped_dates cs) x L' hchE l1' a 1 1 l2 le_rfl
    simp only [List.length_cons]
    omega

/-! ### Claim C2: the walk invariant and the main comparison theorem -/

theorem streakGo_le_longest (cs : List Completion)
    (hval : ∀ c ∈ cs, c.status = "completed" ∨ c.status = "skipped")
    (hnd : (cs.map Completion.completed_date).Nodup) (today : Int) :
    ∀ (s : Nat) (cd : Int), ∀ L : List Int,
      L.length = s →
      (∀ a ∈ L, a ∈ completedDatesList cs) →
      List.Chain' (chainR cs) L →
      (∀ x ∈ L.head?, cd < x ∧
        ∀ e : Int, cd < e → e < x →
          e ∈ skipped_dates cs ∧ e ∉ completedDatesList cs) →
      streakGo cs today s cd ≤ calculate_longest_streak cs := by
  intro s cd
  induction s, cd using streakGo.induct cs today with
  | case1 s cd st hmap ih =>
    intro L hlen hmem hch hhead
    rw [streakGo_eq, hmap]
    dsimp only
    by_cases hc : (st == "completed") = true
    · simp only [dif_pos hc] at ih
      simp only [if_pos hc]
      have hstc : st = "completed" := by simpa using hc
      have hcdmem : cd ∈ completedDatesList cs := by
        obtain ⟨c, hc', hcdate, hcst⟩ := completion_map_some_mem hmap
        exact (mem_completedDatesList cs cd).mpr
          ⟨c, hc', by rw [hcst, hstc], hcdate⟩
      apply ih (cd :: L)
      · simp [hlen]
      · intro a ha
        rcases List.mem_cons.mp ha with rfl | ha'
        · exact hcdmem
        · exact hmem a ha'
      · cases L with
        | nil => simp
        | cons x L'' =>
          rw [List.chain'_cons]
          obtain ⟨hcdx, hreg⟩ := hhead x (by simp)
          refine ⟨⟨hcdx, ?_, fun e h1 h2 => (hreg e h1 h2).2⟩, hch⟩
          by_cases hg : x - cd = 1
          · exact Or.inl hg
          · refine Or.inr ⟨by omega, ?_⟩
            rw [all_gap_days_skipped_iff]
            intro e h1 h2
            exact (contains_iff_mem_int _ e).mpr (hreg e h1 h2).1
      · intro x hx
        simp only [List.head?_cons, Option.mem_def, Option.some.injEq] at hx
        subst hx
        have hpd : _prev_day cd = cd - 1 := rfl
        refine ⟨by omega, ?_⟩
        intro e h1 h2
        exfalso
        omega
    · simp only [dif_neg hc] at ih
      simp only [if_neg hc]
      apply ih L hlen hmem hch
      intro x hx
      obtain ⟨hcdx, hreg⟩ := hhead x hx
      have hpd : _prev_day cd = cd - 1 := rfl
      refine ⟨by omega, ?_⟩
      intro e h1 h2
      by_cases he : e = cd
      · subst he
        constructor
        · obtain ⟨c, hcmem, hcdate, hcst⟩ := completion_map_some_mem hmap
          rcases hval c hcmem with hcomp | hskip
          · exfalso
            apply hc
            have hstc : st = "completed" := by rw [← hcst]; exact hcomp
            simp [hstc]
          · exact (mem_skipped_dates cs e).mpr ⟨c, hcmem, hskip, hcdate⟩
        · intro hmC
          have hcm := completion_map_of_mem_completed cs hnd e hmC
          rw [hmap] at hcm
          have hstc : st = "completed" := Option.some.inj hcm
          exact hc (by simp [hstc])
      · exact hreg e (by omega) h2
  | case2 s cd hmap hs =>
    intro L hlen hmem hch hhead
    rw [streakGo_eq, hmap]
    dsimp only
    rw [if_pos hs]
    cases L with
    | nil =>
      simp at hlen
      omega
    | cons x L' =>
      have hchx : List.Chain (chainR cs) x L' := hch
      have hle := chain_le_longest cs hnd x L' hmem hchx
      rw [hlen] at hle
      exact hle
  | case3 s cd hmap hs cdl hbd =>
    intro L hlen hmem hch hhead
    rw [streakGo_eq, hmap]
    dsimp only
    rw [if_neg hs, if_pos hbd]
    have hs0 : s = 0 := by omega
    subst hs0
    exact Nat.zero_le _
  | case4 s cd hmap hs cdl hbd ih =>
    intro L hlen hmem hch hhead
    rw [streakGo_eq, hmap]
    dsimp only
    rw [if_neg hs, if_neg hbd]
    have hs0 : s = 0 := by omega
    have hL : L = [] := by
      cases L with
      | nil => rfl
      | cons x L' =>
        simp at hlen
        omega
    subst hL
    apply ih []
    · simpa using hs0.symm
    · intro a ha
      cases ha
    · simp
    · intro x hx
      simp at hx

/-- C2: on inputs satisfying the engine's input invariants (every status is
Completed or Skipped, and at most one event per date), the longest streak is
greater than or equal to the current streak, for every event list and every
reference date. -/
theorem C2_longest_ge_current (cs : List Completion) (today : Int)
    (hval : ∀ c ∈ cs, c.status = "completed" ∨ c.status = "skipped")
    (hnd : (cs.map Completion.completed_date).Nodup) :
    calculate_streak cs today ≤ calculate_longest_streak cs := by
  unfold calculate_streak
  by_cases hcs : cs.isEmpty = true
  · rw [if_pos hcs]
    exact Nat.zero_le _
  · rw [if_neg hcs]
    apply streakGo_le_longest cs hval hnd today 0 today []
    · rfl
    · intro a ha
      cases ha
    · simp
    · intro x hx
      simp at hx

/-- Witness for C2 at a concrete input: the scenario-2 events satisfy both
invariants and there the current streak (2) is at most the longest streak
(2). -/
theorem C2_witness :
    (∀ c ∈ c4_events, c.status = "completed" ∨ c.status = "skipped") ∧
      (c4_events.map Completion.completed_date).Nodup ∧
      calculate_streak c4_events 10 ≤ calculate_longest_streak c4_events :=
  ⟨by decide, by decide, C2_longest_ge_current c4_events 10 (by decide) (by decide)⟩
